import Mathlib

/-!
Shallow embedding of cmd/loadspec/parse_slowlog.go, the parseslowlog command
of the esperf repository, together with proofs about the claims of its
specification. The pipeline of the source is: match every stdin line against
a fixed regular expression, keep only query slowlog lines, build an Entry per
kept line (host and index overrides applied), sort all entries by absolute
timestamp, then walk the sorted list turning absolute timestamps into
inter-arrival delays and stop once the accumulated delay reaches the
configured maximum duration. Strings are processed as their character lists;
Go int64 arithmetic is modelled as Int with explicit wrapping (wrap64)
wherever the source can overflow.
-/

/-- Modelled from the spec: the struct loadspec.Entry is declared outside the
given sources; its fields follow the data model of the spec (id, url, source,
delaySinceLastNanos) and the uses in parse_slowlog.go. delaySinceLastNanos
holds the absolute timestamp in nanoseconds while entries are built and
sorted, and the relative delay after the emit stage, exactly as in the
source. -/
structure Entry where
  id : Int
  url : String
  source : String
  delaySinceLastNanos : Int
deriving DecidableEq

instance : Inhabited Entry := ⟨⟨0, "", "", 0⟩⟩

/-- Wrapping of a mathematical integer into the range of a Go int64
(two-complement, hence into [-2^63, 2^63)). Applied wherever the emit loop of
the source performs int64 arithmetic. -/
def wrap64 (x : Int) : Int := (x + 2 ^ 63) % 2 ^ 64 - 2 ^ 63

/-- The emit loop of parse_slowlog.go, lines 133 to 151. It walks the sorted
entries carrying the loop index i, previousTimestamp and elapsed. For the
entry at index i it sets ID := i, remembers the absolute timestamp held in
DelaySinceLastNanos as currTimestamp, overwrites DelaySinceLastNanos with 0
when i = 0 and with the int64 difference to previousTimestamp otherwise,
updates previousTimestamp, emits the entry, adds the emitted delay to elapsed
(int64 addition) and breaks right after the entry at which elapsed reaches
maxD, provided maxD is positive. The JSON encoding is not modelled; the
returned list holds the emitted entries in emission order. -/
def emitLoop (maxD : Int) : List Entry → Nat → Int → Int → List Entry
  | [], _, _, _ => []
  | e :: rest, i, prev, elapsed =>
    let curr := e.delaySinceLastNanos
    let d := if i = 0 then 0 else wrap64 (e.delaySinceLastNanos - prev)
    let e2 : Entry := { e with id := (i : Int), delaySinceLastNanos := d }
    let elapsed2 := wrap64 (elapsed + d)
    if 0 < maxD ∧ maxD ≤ elapsed2 then [e2]
    else e2 :: emitLoop maxD rest (i + 1) curr elapsed2

/-- The emit stage as RunE enters it: index, previousTimestamp and elapsed
all start at 0 over the sorted entry list. -/
def emit (entries : List Entry) (maxD : Int) : List Entry :=
  emitLoop maxD entries 0 0 0

/-- Sum of the delaySinceLastNanos values of a list of entries. -/
def delaySum (l : List Entry) : Int :=
  (l.map (fun e => e.delaySinceLastNanos)).sum

/-- Absolute timestamp (the delaySinceLastNanos field before the emit stage)
of the entry at position j, with default 0 past the end. -/
def tsAt (es : List Entry) (j : Nat) : Int :=
  (es.map (fun e => e.delaySinceLastNanos)).getD j 0

/-- Modelled from the spec: the comparator loadspec.ByDelaySinceLastNanos is
declared outside the given sources; per the spec, section 4.3, it orders
entries ascending by the delaySinceLastNanos field, which at the sort stage
still holds the absolute timestamp. -/
def entryLE (a b : Entry) : Prop :=
  a.delaySinceLastNanos ≤ b.delaySinceLastNanos

instance (a b : Entry) : Decidable (entryLE a b) := by
  unfold entryLE; infer_instance

/-- The entry list is non-decreasing in its absolute timestamps. -/
def tsSorted (es : List Entry) : Prop := es.Pairwise entryLE

instance (es : List Entry) : Decidable (tsSorted es) := by
  unfold tsSorted; infer_instance

/-- The sort stage, parse_slowlog.go line 127: sort.Sort(entries) with the
ByDelaySinceLastNanos comparator. Go sort.Sort guarantees that the result is
a reordering of the input on which the comparator never decreases, and its
documentation states that the sort is NOT guaranteed to be stable. The stage
is therefore modelled by its contract: the output is a permutation of the
built entries that is non-decreasing in delaySinceLastNanos. -/
def sortRel (l out : List Entry) : Prop :=
  l.Perm out ∧ out.Pairwise entryLE

instance (l out : List Entry) : Decidable (sortRel l out) := by
  unfold sortRel; infer_instance

/-- All absolute timestamps of the entries lie in [0, 2^62): the range of
every Unix timestamp in nanoseconds of a date between 1970 and the year
2115. Inside this range the int64 arithmetic of the emit loop cannot
wrap. -/
def InRange (es : List Entry) : Prop :=
  ∀ e ∈ es, 0 ≤ e.delaySinceLastNanos ∧ e.delaySinceLastNanos < 2 ^ 62

instance (es : List Entry) : Decidable (InRange es) := by
  unfold InRange; infer_instance

/-- Elements of the regular expression of parse_slowlog.go line 67, read left
to right: a literal piece of text, an optional arbitrary character (.?), an
arbitrary greedy stretch (.*), a captured nonempty stretch of characters
other than a closing bracket ((?P<name>[^]]+)), and a captured greedy
arbitrary stretch ((?P<source>.*)). -/
inductive Pat where
  | lit (s : List Char)
  | anyOpt
  | anyStar
  | capCls
  | capAll
deriving DecidableEq

/-- Character-list version of a prefix test, as Go strings.HasPrefix. -/
def hasPrefixCL : List Char → List Char → Bool
  | [], _ => true
  | _ :: _, [] => false
  | p :: ps, c :: cs => p = c && hasPrefixCL ps cs

/-- All ways to split a string into a consumed part and a remainder, the
consumed part growing. The matcher reverses this list so that the longest
consumed part is tried first, giving the greedy backtracking order of the
regular expression engine. -/
def splits : List Char → List (List Char × List Char)
  | [] => [([], [])]
  | c :: cs => ([], c :: cs) :: (splits cs).map (fun p => (c :: p.1, p.2))

/-- Backtracking matcher for a pattern against a character list, with
leftmost-first greedy semantics as Go regexp assigns submatches: a literal
must match verbatim, .? prefers consuming one character, .* and both capture
forms try the longest consumed stretch first, and [^]]+ additionally requires
a nonempty stretch free of closing brackets. Returns the list of captured
stretches in pattern order; the pattern may end before the input does. -/
def patMatch : List Pat → List Char → Option (List (List Char))
  | [], _ => some []
  | .lit s :: ps, cs =>
    if hasPrefixCL s cs then patMatch ps (cs.drop s.length) else none
  | .anyOpt :: ps, cs =>
    (match cs with
     | _ :: cs2 => patMatch ps cs2
     | [] => none) <|> patMatch ps cs
  | .anyStar :: ps, cs =>
    ((splits cs).reverse).findSome? (fun pr => patMatch ps pr.2)
  | .capCls :: ps, cs =>
    ((splits cs).reverse).findSome? (fun pr =>
      if pr.1.isEmpty || pr.1.any (fun c => c = ']') then none
      else (patMatch ps pr.2).map (fun caps => pr.1 :: caps))
  | .capAll :: ps, cs =>
    ((splits cs).reverse).findSome? (fun pr =>
      (patMatch ps pr.2).map (fun caps => pr.1 :: caps))

/-- The named fields the regular expression of parse_slowlog.go line 67
captures from one log line, in capture order: ts, log_type, host, index,
types, search_type, source. -/
structure LogFields where
  ts : String
  log_type : String
  host : String
  index : String
  types : String
  search_type : String
  source : String
deriving DecidableEq

/-- The regular expression of parse_slowlog.go line 67 as pattern data, piece
by piece. -/
def slowlogPat : List Pat :=
  [ .lit ['['], .capCls, .lit [']'], .anyOpt,
    .lit ['['], .anyStar, .lit [']'], .anyOpt,
    .lit ['['], .capCls, .lit [']'], .anyOpt,
    .lit ['['], .capCls, .lit [']'], .anyOpt,
    .lit ['['], .capCls, .lit [']'], .anyOpt,
    .lit ['['], .anyStar, .lit [']'],
    .anyStar, .lit "types[".data, .capCls, .lit [']'],
    .anyStar, .lit "search_type[".data, .capCls, .lit [']'],
    .anyStar, .lit "source[".data, .capAll, .lit "], extra_source".data ]

/-- Unanchored search: try the pattern at every start position, leftmost
first, as Go FindAllStringSubmatch finds its first (leftmost) match. -/
def reFind : List Char → Option (List (List Char))
  | [] => patMatch slowlogPat []
  | c :: cs2 =>
    match patMatch slowlogPat (c :: cs2) with
    | some caps => some caps
    | none => reFind cs2

/-- One line through the regular expression, parse_slowlog.go lines 79 to 85:
the first match of the pattern yields the named fields. A line with no match
makes the source panic on the unchecked index [0] into an empty match list,
which aborts the run; here that outcome is the none value. -/
def matchLine (line : String) : Option LogFields :=
  match reFind line.data with
  | some [c1, c2, c3, c4, c5, c6, c7] =>
    some ⟨String.mk c1, String.mk c2, String.mk c3, String.mk c4,
      String.mk c5, String.mk c6, String.mk c7⟩
  | _ => none

/-- A year is a leap year in the proleptic Gregorian calendar. -/
def isLeap (y : Nat) : Bool := (y % 4 = 0 && y % 100 != 0) || y % 400 = 0

/-- Number of days of month m of year y. -/
def daysInMonth (y m : Nat) : Nat :=
  if m = 2 then (if isLeap y then 29 else 28)
  else if m = 4 || m = 6 || m = 9 || m = 11 then 30
  else 31

/-- Days from the Unix epoch to the given civil date (shifted civil day
count, so negative before 1970). -/
def daysFromEpoch (y m d : Nat) : Int :=
  let yy := y + 400
  let y2 := if m ≤ 2 then yy - 1 else yy
  let era := y2 / 400
  let yoe := y2 % 400
  let mp := (m + 9) % 12
  let doy := (153 * mp + 2) / 5 + (d - 1)
  let doe := yoe * 365 + yoe / 4 - yoe / 100 + doy
  ((era * 146097 + doe : Nat) : Int) - 146097 - 719468

/-- Numeric value of a decimal digit character. -/
def digitVal (c : Char) : Nat := c.toNat - '0'.toNat

/-- Modelled from the spec: the constant timeLayout used at
parse_slowlog.go line 94 is declared outside the given sources; per the spec
it is the slowlog timestamp layout with milliseconds, which after the comma
of the log has been replaced by a dot reads 2006-01-02 15:04:05.000. This
parses exactly that shape, validating the field ranges as Go time.Parse
does, and yields Unix nanoseconds (UTC, as Go parses a layout with no
zone). -/
def parseTimestamp (s : String) : Option Int :=
  match s.data with
  | [y1, y2, y3, y4, '-', o1, o2, '-', d1, d2, ' ',
     h1, h2, ':', n1, n2, ':', e1, e2, '.', f1, f2, f3] =>
    if [y1, y2, y3, y4, o1, o2, d1, d2, h1, h2, n1, n2, e1, e2, f1, f2, f3].all
        Char.isDigit then
      let y := digitVal y1 * 1000 + digitVal y2 * 100 + digitVal y3 * 10 + digitVal y4
      let mo := digitVal o1 * 10 + digitVal o2
      let d := digitVal d1 * 10 + digitVal d2
      let h := digitVal h1 * 10 + digitVal h2
      let mi := digitVal n1 * 10 + digitVal n2
      let se := digitVal e1 * 10 + digitVal e2
      let ms := digitVal f1 * 100 + digitVal f2 * 10 + digitVal f3
      if 1 ≤ mo && mo ≤ 12 && 1 ≤ d && d ≤ daysInMonth y mo
          && h ≤ 23 && mi ≤ 59 && se ≤ 59 then
        some ((daysFromEpoch y mo d * 86400 + (h * 3600 + mi * 60 + se : Nat)) * 1000000000
          + (ms : Int) * 1000000)
      else none
    else none
  | _ => none

/-- strings.Replace(s, comma, dot, 1) of parse_slowlog.go line 94: replace
the first comma by a dot. -/
def replaceCommaOnce : List Char → List Char
  | [] => []
  | c :: cs => if c = ',' then '.' :: cs else c :: replaceCommaOnce cs

/-- strings.ToLower on a character list; Go lowercases beyond ASCII, Lean
Char.toLower covers ASCII, which covers the search_type values of a
slowlog. -/
def lowerCL (l : List Char) : List Char := l.map Char.toLower

/-- The errors that abort the run of the scan loop: a line the regular
expression does not match (the spec names it MalformedLineError; in the
source it is a panic on an unchecked index), and a timestamp time.Parse
rejects (TimestampParseError in the spec). -/
inductive RunErr where
  | malformedLine : RunErr
  | timestampParse : RunErr
deriving DecidableEq

/-- URL construction of parse_slowlog.go lines 100 to 119 for one accepted
line: the host is the urlArg override when nonempty, else the host field;
the index is the override list element at position count modulo its length
when overrides were given, else the index field; the path joins host, index,
types and _search with slashes; a nonempty search_type appends a lowercased
query parameter. -/
def mkUrl (urlArg : String) (ov : List String) (count : Nat) (f : LogFields) : String :=
  let host := if urlArg ≠ "" then urlArg else f.host
  let index := if h : 0 < ov.length then ov.get ⟨count % ov.length, Nat.mod_lt count h⟩
    else f.index
  let st := if f.search_type ≠ "" then
    "?search_type=" ++ String.mk (lowerCL f.search_type.data) else ""
  host ++ "/" ++ index ++ "/" ++ f.types ++ "/_search" ++ st

/-- The scan loop of parse_slowlog.go lines 77 to 122 over the input lines,
carrying the accepted-line counter count. A line the regular expression does
not match aborts the run (the source panics on the unchecked first-match
index); a line whose log_type is not index.search.slowlog.query is skipped
without touching count; an accepted line parses its timestamp (comma
replaced by a dot first; failure aborts the run), builds the Entry holding
the absolute timestamp in delaySinceLastNanos and the constructed URL, and
increments count. The ID field stays at its zero value here. -/
def buildLoop (urlArg : String) (ov : List String) :
    List String → Nat → Except RunErr (List Entry)
  | [], _ => .ok []
  | line :: rest, count =>
    match matchLine line with
    | none => .error .malformedLine
    | some f =>
      if f.log_type ≠ "index.search.slowlog.query" then
        buildLoop urlArg ov rest count
      else
        match parseTimestamp (String.mk (replaceCommaOnce f.ts.data)) with
        | none => .error .timestampParse
        | some t =>
          (buildLoop urlArg ov rest (count + 1)).map
            (fun es => Entry.mk 0 (mkUrl urlArg ov count f) f.source t :: es)

/-- The accepted field records of an input: fields of every line that matches
the pattern and carries the query log category, in encounter order. -/
def acceptedOf (lines : List String) : List LogFields :=
  lines.filterMap (fun l =>
    match matchLine l with
    | some f => if f.log_type = "index.search.slowlog.query" then some f else none
    | none => none)

/-- First position of a character in a character list, as strings.Index of
parse_slowlog.go line 57 finds the first slash (none stands for the -1 of
Go). -/
def strIndex (c : Char) : List Char → Option Nat
  | [] => none
  | x :: xs => if x = c then some 0 else (strIndex c xs).map (fun i => i + 1)

/-- The scheme prefix the urlArg handling of parse_slowlog.go lines 49 to 56
strips and later restores. -/
def schemeOf (a : String) : String :=
  if hasPrefixCL "http://".data a.data then "http://"
  else if hasPrefixCL "https://".data a.data then "https://"
  else ""

/-- The argument with its scheme prefix stripped, as after the TrimPrefix
calls of parse_slowlog.go lines 51 and 54. -/
def remOf (a : String) : String :=
  String.mk (a.data.drop (schemeOf a).data.length)

/-- Normalization of the optional target URL argument, parse_slowlog.go
lines 44 to 62: with at least one positional argument, strip a http:// or
https:// scheme, cut the remainder at the first slash ONLY when
strings.Index returns a position greater than zero, and put the scheme back.
With no argument the override stays empty. -/
def normalizeUrlArg (args : List String) : String :=
  match args with
  | [] => ""
  | a :: _ =>
    match strIndex '/' (remOf a).data with
    | some i =>
      if 0 < i then schemeOf a ++ String.mk ((remOf a).data.take i)
      else schemeOf a ++ remOf a
    | none => schemeOf a ++ remOf a

/-- The normalization procedure exactly as the specification words it for
claim C8: strip a http:// or https:// scheme, drop everything from the first
slash of the remainder onward, and put the scheme back. Stated for
comparison with normalizeUrlArg, which is translated from the code. -/
def normalizeUrlArgSpec (args : List String) : String :=
  match args with
  | [] => ""
  | a :: _ => schemeOf a ++ String.mk ((remOf a).data.takeWhile (fun c => c ≠ '/'))

deriving instance DecidableEq for Except

/-- A slowlog line of the query category used by concrete witnesses. -/
def lineQuery1 : String :=
  "[2020-01-01 10:00:00,000][I][index.search.slowlog.query][h][myidx][x]types[t]search_type[S]source[q], extra_source"

/-- A second slowlog line of the query category, one second later. -/
def lineQuery2 : String :=
  "[2020-01-01 10:00:01,000][I][index.search.slowlog.query][h2][myidx][x]types[t]search_type[S]source[q2], extra_source"

/-- A structurally well-formed line whose log_type is not the query
category. -/
def lineFetch : String :=
  "[t][a][x][h][i][b]types[y]search_type[s]source[q], extra_source"

theorem wrap64_eq_self {x : Int} (h1 : -(2 ^ 63) ≤ x) (h2 : x < 2 ^ 63) :
    wrap64 x = x := by
  unfold wrap64
  have h0 : (0:Int) ≤ x + 2 ^ 63 := by omega
  have h3 : x + 2 ^ 63 < 2 ^ 64 := by omega
  rw [Int.emod_eq_of_lt h0 h3]
  omega

theorem wrap64_zero : wrap64 0 = 0 := by
  unfold wrap64
  norm_num

theorem emitLoop_cons_zero (maxD : Int) (e : Entry) (rest : List Entry)
    (prev elapsed : Int) :
    emitLoop maxD (e :: rest) 0 prev elapsed =
      if 0 < maxD ∧ maxD ≤ wrap64 elapsed then
        [{ e with id := 0, delaySinceLastNanos := 0 }]
      else
        { e with id := 0, delaySinceLastNanos := 0 } ::
          emitLoop maxD rest 1 e.delaySinceLastNanos (wrap64 elapsed) := by
  simp [emitLoop]

theorem emitLoop_cons_ne (maxD : Int) (e : Entry) (rest : List Entry)
    {i : Nat} (hi : i ≠ 0) (prev elapsed : Int) :
    emitLoop maxD (e :: rest) i prev elapsed =
      if 0 < maxD ∧ maxD ≤ wrap64 (elapsed + wrap64 (e.delaySinceLastNanos - prev)) then
        [{ e with id := (i : Int), delaySinceLastNanos := wrap64 (e.delaySinceLastNanos - prev) }]
      else
        { e with id := (i : Int), delaySinceLastNanos := wrap64 (e.delaySinceLastNanos - prev) } ::
          emitLoop maxD rest (i + 1) e.delaySinceLastNanos
            (wrap64 (elapsed + wrap64 (e.delaySinceLastNanos - prev))) := by
  simp [emitLoop, hi]

theorem emit_cons (maxD : Int) (e : Entry) (rest : List Entry) :
    emit (e :: rest) maxD =
      { e with id := 0, delaySinceLastNanos := 0 } ::
        emitLoop maxD rest 1 e.delaySinceLastNanos 0 := by
  unfold emit
  rw [emitLoop_cons_zero, wrap64_zero, if_neg (by omega)]

theorem emitLoop_length_le (maxD : Int) (es : List Entry) (i : Nat) (prev elapsed : Int) :
    (emitLoop maxD es i prev elapsed).length ≤ es.length := by
  induction es generalizing i prev elapsed with
  | nil => simp [emitLoop]
  | cons e rest ih =>
    rcases Nat.eq_zero_or_pos i with hi | hi
    · subst hi
      rw [emitLoop_cons_zero]
      split_ifs
      · simp
      · simpa using ih 1 _ _
    · rw [emitLoop_cons_ne maxD e rest (Nat.pos_iff_ne_zero.mp hi)]
      split_ifs
      · simp
      · simpa using ih (i + 1) _ _

theorem emitLoop_length_pos (maxD : Int) (e : Entry) (rest : List Entry)
    (i : Nat) (prev elapsed : Int) :
    0 < (emitLoop maxD (e :: rest) i prev elapsed).length := by
  rcases Nat.eq_zero_or_pos i with hi | hi
  · subst hi
    rw [emitLoop_cons_zero]
    split_ifs <;> simp
  · rw [emitLoop_cons_ne maxD e rest (Nat.pos_iff_ne_zero.mp hi)]
    split_ifs <;> simp

theorem emitLoop_id (maxD : Int) (es : List Entry) (i : Nat) (prev elapsed : Int)
    (j : Nat) (hj : j < (emitLoop maxD es i prev elapsed).length) :
    ((emitLoop maxD es i prev elapsed)[j]?).map Entry.id = some ((i + j : Nat) : Int) := by
  induction es generalizing i prev elapsed j with
  | nil => simp [emitLoop] at hj
  | cons e rest ih =>
    rcases Nat.eq_zero_or_pos i with hi | hi
    · subst hi
      rw [emitLoop_cons_zero] at hj ⊢
      split_ifs at hj ⊢ with hc
      · simp only [List.length_cons, List.length_nil] at hj
        cases j with
        | zero => simp
        | succ k => omega
      · cases j with
        | zero => simp
        | succ k =>
          rw [List.getElem?_cons_succ,
            ih 1 e.delaySinceLastNanos (wrap64 elapsed) k (by simpa using hj)]
          congr 1
          omega
    · rw [emitLoop_cons_ne maxD e rest (Nat.pos_iff_ne_zero.mp hi)] at hj ⊢
      split_ifs at hj ⊢ with hc
      · simp only [List.length_cons, List.length_nil] at hj
        cases j with
        | zero => simp
        | succ k => omega
      · cases j with
        | zero => simp
        | succ k =>
          rw [List.getElem?_cons_succ,
            ih (i + 1) e.delaySinceLastNanos _ k (by simpa using hj)]
          congr 1
          omega

theorem tsAt_cons_zero (e : Entry) (rest : List Entry) :
    tsAt (e :: rest) 0 = e.delaySinceLastNanos := rfl

theorem tsAt_cons_succ (e : Entry) (rest : List Entry) (j : Nat) :
    tsAt (e :: rest) (j + 1) = tsAt rest j := rfl

theorem emitLoop_head_delay (maxD : Int) (e : Entry) (rest : List Entry)
    {i : Nat} (hi : i ≠ 0) (prev elapsed : Int) :
    ((emitLoop maxD (e :: rest) i prev elapsed)[0]?).map Entry.delaySinceLastNanos =
      some (wrap64 (e.delaySinceLastNanos - prev)) := by
  rw [emitLoop_cons_ne maxD e rest hi]
  split_ifs <;> simp

theorem emitLoop_delay_step (maxD : Int) (es : List Entry) (i : Nat) (prev elapsed : Int)
    (j : Nat) (hj : j + 1 < (emitLoop maxD es i prev elapsed).length) :
    ((emitLoop maxD es i prev elapsed)[j + 1]?).map Entry.delaySinceLastNanos =
      some (wrap64 (tsAt es (j + 1) - tsAt es j)) := by
  induction es generalizing i prev elapsed j with
  | nil => simp [emitLoop] at hj
  | cons e rest ih =>
    rcases Nat.eq_zero_or_pos i with hi | hi
    · subst hi
      rw [emitLoop_cons_zero] at hj ⊢
      split_ifs at hj ⊢ with hc
      · simp only [List.length_cons, List.length_nil] at hj
        omega
      · rw [List.getElem?_cons_succ]
        cases j with
        | zero =>
          simp only [List.length_cons] at hj
          match rest, hj with
          | f :: rest2, _ =>
            rw [tsAt_cons_succ, tsAt_cons_zero, tsAt_cons_zero]
            exact emitLoop_head_delay maxD f rest2 (by omega) _ _
        | succ k =>
          rw [tsAt_cons_succ, tsAt_cons_succ]
          exact ih 1 _ _ k (by simpa using hj)
    · rw [emitLoop_cons_ne maxD e rest (Nat.pos_iff_ne_zero.mp hi)] at hj ⊢
      split_ifs at hj ⊢ with hc
      · simp only [List.length_cons, List.length_nil] at hj
        omega
      · rw [List.getElem?_cons_succ]
        cases j with
        | zero =>
          simp only [List.length_cons] at hj
          match rest, hj with
          | f :: rest2, _ =>
            rw [tsAt_cons_succ, tsAt_cons_zero, tsAt_cons_zero]
            exact emitLoop_head_delay maxD f rest2 (by omega) _ _
        | succ k =>
          rw [tsAt_cons_succ, tsAt_cons_succ]
          exact ih (i + 1) _ _ k (by simpa using hj)

theorem tsAt_bounds {es : List Entry} (hr : InRange es) {j : Nat} (hj : j < es.length) :
    0 ≤ tsAt es j ∧ tsAt es j < 2 ^ 62 := by
  induction es generalizing j with
  | nil => simp at hj
  | cons e rest ih =>
    cases j with
    | zero => exact hr e (List.mem_cons_self e rest)
    | succ k =>
      rw [tsAt_cons_succ]
      exact ih (fun x hx => hr x (List.mem_cons_of_mem e hx)) (by simpa using hj)

theorem emit_take_sum (es : List Entry) (maxD : Int) (hr : InRange es)
    (j : Nat) (hj : j < (emit es maxD).length) :
    delaySum ((emit es maxD).take (j + 1)) = tsAt es j - tsAt es 0 := by
  induction j with
  | zero =>
    match es, hj with
    | e :: rest, _ =>
      rw [emit_cons]
      simp [delaySum]
  | succ k ih =>
    have hk : k < (emit es maxD).length := by omega
    have hlen : k + 1 < es.length :=
      Nat.lt_of_lt_of_le hj (emitLoop_length_le maxD es 0 0 0)
    have hb : k + 1 < ((emit es maxD).map (fun e => e.delaySinceLastNanos)).length := by
      simpa using hj
    have hsum : delaySum ((emit es maxD).take (k + 1 + 1)) =
        delaySum ((emit es maxD).take (k + 1)) +
          ((emit es maxD).map (fun e => e.delaySinceLastNanos)).get ⟨k + 1, hb⟩ := by
      unfold delaySum
      rw [List.map_take, List.map_take, List.sum_take_succ _ (k + 1) hb]
      rfl
    have hd : ((emit es maxD).map (fun e => e.delaySinceLastNanos)).get ⟨k + 1, hb⟩ =
        wrap64 (tsAt es (k + 1) - tsAt es k) := by
      have hstep := emitLoop_delay_step maxD es 0 0 0 k hj
      rw [show emitLoop maxD es 0 0 0 = emit es maxD from rfl] at hstep
      rw [List.getElem?_eq_getElem hj] at hstep
      rw [List.get_eq_getElem, List.getElem_map]
      simpa using hstep
    rw [hsum, hd, ih hk]
    have b1 := tsAt_bounds hr (Nat.lt_of_succ_lt hlen)
    have b2 := tsAt_bounds hr hlen
    rw [wrap64_eq_self (by omega) (by omega)]
    ring
theorem elapsed_step {t0 prev t : Int} (ht0 : 0 ≤ t0) (hp1 : t0 ≤ prev) (hp2 : prev < 2 ^ 62)
    (hle : prev ≤ t) (ht : t < 2 ^ 62) :
    wrap64 ((prev - t0) + wrap64 (t - prev)) = t - t0 := by
  have h1 : wrap64 (t - prev) = t - prev := wrap64_eq_self (by omega) (by omega)
  rw [h1, wrap64_eq_self (by omega) (by omega)]
  ring

theorem emitLoop_no_cut (maxD t0 : Int) :
    ∀ (es : List Entry) (i : Nat) (prev : Int) (j : Nat),
    i ≠ 0 → 0 < maxD → es.Pairwise entryLE → InRange es →
    0 ≤ t0 → t0 ≤ prev → prev < 2 ^ 62 →
    (∀ e ∈ es, prev ≤ e.delaySinceLastNanos) →
    j + 1 < (emitLoop maxD es i prev (prev - t0)).length →
    tsAt es j - t0 < maxD := by
  intro es
  induction es with
  | nil => intro i prev j _ _ _ _ _ _ _ _ hj; simp [emitLoop] at hj
  | cons e rest ih =>
    intro i prev j hi hD hs hr ht0 hp1 hp2 hlb hj
    have hert : 0 ≤ e.delaySinceLastNanos ∧ e.delaySinceLastNanos < 2 ^ 62 :=
      hr e (List.mem_cons_self e rest)
    have hpe : prev ≤ e.delaySinceLastNanos := hlb e (List.mem_cons_self e rest)
    have hw : wrap64 ((prev - t0) + wrap64 (e.delaySinceLastNanos - prev)) =
        e.delaySinceLastNanos - t0 := elapsed_step ht0 hp1 hp2 hpe hert.2
    rw [emitLoop_cons_ne maxD e rest hi, hw] at hj
    split_ifs at hj with hc
    · simp only [List.length_cons, List.length_nil] at hj
      omega
    · have hlt : e.delaySinceLastNanos - t0 < maxD := by
        rcases not_and_or.mp hc with h | h
        · omega
        · omega
      cases j with
      | zero => rw [tsAt_cons_zero]; exact hlt
      | succ k =>
        rw [tsAt_cons_succ]
        exact ih (i + 1) e.delaySinceLastNanos k (by omega) hD hs.of_cons
          (fun x hx => hr x (List.mem_cons_of_mem e hx)) ht0 (by omega) hert.2
          (fun x hx => List.rel_of_pairwise_cons hs hx) (by simpa using hj)

theorem emitLoop_len_nocut (maxD t0 : Int) :
    ∀ (es : List Entry) (i : Nat) (prev : Int),
    i ≠ 0 → es.Pairwise entryLE → InRange es →
    0 ≤ t0 → t0 ≤ prev → prev < 2 ^ 62 →
    (∀ e ∈ es, prev ≤ e.delaySinceLastNanos) →
    (∀ j, j < es.length → tsAt es j - t0 < maxD) →
    (emitLoop maxD es i prev (prev - t0)).length = es.length := by
  intro es
  induction es with
  | nil => intro i prev _ _ _ _ _ _ _ _; simp [emitLoop]
  | cons e rest ih =>
    intro i prev hi hs hr ht0 hp1 hp2 hlb hall
    have hert : 0 ≤ e.delaySinceLastNanos ∧ e.delaySinceLastNanos < 2 ^ 62 :=
      hr e (List.mem_cons_self e rest)
    have hpe : prev ≤ e.delaySinceLastNanos := hlb e (List.mem_cons_self e rest)
    have hw : wrap64 ((prev - t0) + wrap64 (e.delaySinceLastNanos - prev)) =
        e.delaySinceLastNanos - t0 := elapsed_step ht0 hp1 hp2 hpe hert.2
    rw [emitLoop_cons_ne maxD e rest hi, hw]
    have h0 : e.delaySinceLastNanos - t0 < maxD := by
      have := hall 0 (by simp)
      rwa [tsAt_cons_zero] at this
    rw [if_neg (by omega)]
    simp only [List.length_cons]
    rw [ih (i + 1) e.delaySinceLastNanos (by omega) hs.of_cons
      (fun x hx => hr x (List.mem_cons_of_mem e hx)) ht0 (by omega) hert.2
      (fun x hx => List.rel_of_pairwise_cons hs hx)
      (fun j hj => by
        have := hall (j + 1) (by simpa using hj)
        rwa [tsAt_cons_succ] at this)]

theorem emitLoop_len_cut (maxD t0 : Int) :
    ∀ (es : List Entry) (i : Nat) (prev : Int) (k : Nat),
    i ≠ 0 → 0 < maxD → es.Pairwise entryLE → InRange es →
    0 ≤ t0 → t0 ≤ prev → prev < 2 ^ 62 →
    (∀ e ∈ es, prev ≤ e.delaySinceLastNanos) →
    k < es.length → maxD ≤ tsAt es k - t0 →
    (∀ j, j < k → tsAt es j - t0 < maxD) →
    (emitLoop maxD es i prev (prev - t0)).length = k + 1 := by
  intro es
  induction es with
  | nil => intro i prev k _ _ _ _ _ _ _ _ hk _ _; simp at hk
  | cons e rest ih =>
    intro i prev k hi hD hs hr ht0 hp1 hp2 hlb hk hhit hmin
    have hert : 0 ≤ e.delaySinceLastNanos ∧ e.delaySinceLastNanos < 2 ^ 62 :=
      hr e (List.mem_cons_self e rest)
    have hpe : prev ≤ e.delaySinceLastNanos := hlb e (List.mem_cons_self e rest)
    have hw : wrap64 ((prev - t0) + wrap64 (e.delaySinceLastNanos - prev)) =
        e.delaySinceLastNanos - t0 := elapsed_step ht0 hp1 hp2 hpe hert.2
    rw [emitLoop_cons_ne maxD e rest hi, hw]
    cases k with
    | zero =>
      rw [tsAt_cons_zero] at hhit
      rw [if_pos ⟨hD, hhit⟩]
      simp
    | succ m =>
      have h0 : e.delaySinceLastNanos - t0 < maxD := by
        have := hmin 0 (by omega)
        rwa [tsAt_cons_zero] at this
      rw [if_neg (by omega)]
      simp only [List.length_cons]
      rw [ih (i + 1) e.delaySinceLastNanos m (by omega) hD hs.of_cons
        (fun x hx => hr x (List.mem_cons_of_mem e hx)) ht0 (by omega) hert.2
        (fun x hx => List.rel_of_pairwise_cons hs hx)
        (by simpa using hk)
        (by rwa [tsAt_cons_succ] at hhit)
        (fun j hj => by
          have := hmin (j + 1) (by omega)
          rwa [tsAt_cons_succ] at this)]

theorem emitLoop_len_nonpos (maxD : Int) (hD : ¬ 0 < maxD) :
    ∀ (es : List Entry) (i : Nat) (prev elapsed : Int),
    (emitLoop maxD es i prev elapsed).length = es.length := by
  intro es
  induction es with
  | nil => intro i prev elapsed; simp [emitLoop]
  | cons e rest ih =>
    intro i prev elapsed
    rcases Nat.eq_zero_or_pos i with hi | hi
    · subst hi
      rw [emitLoop_cons_zero, if_neg (by tauto)]
      simp [ih]
    · rw [emitLoop_cons_ne maxD e rest (Nat.pos_iff_ne_zero.mp hi), if_neg (by tauto)]
      simp [ih]

theorem emit_no_cut (es : List Entry) (maxD : Int) (hD : 0 < maxD)
    (hs : tsSorted es) (hr : InRange es) :
    ∀ j, j + 1 < (emit es maxD).length → tsAt es j - tsAt es 0 < maxD := by
  intro j hj
  match es, hj with
  | e :: rest, hj =>
    rw [emit_cons] at hj
    cases j with
    | zero => omega
    | succ k =>
      rw [tsAt_cons_succ, tsAt_cons_zero]
      have h0 := hr e (List.mem_cons_self e rest)
      have hlen : k + 1 < (emitLoop maxD rest 1 e.delaySinceLastNanos
          (e.delaySinceLastNanos - e.delaySinceLastNanos)).length := by
        rw [sub_self]
        simpa using hj
      exact emitLoop_no_cut maxD e.delaySinceLastNanos rest 1 e.delaySinceLastNanos k
        (by omega) hD hs.of_cons (fun x hx => hr x (List.mem_cons_of_mem e hx))
        h0.1 le_rfl h0.2 (fun x hx => List.rel_of_pairwise_cons hs hx) hlen

theorem tsAt_mono_succ {es : List Entry} (hs : tsSorted es) {j : Nat} (hj : j + 1 < es.length) :
    tsAt es j ≤ tsAt es (j + 1) := by
  induction es generalizing j with
  | nil => simp at hj
  | cons e rest ih =>
    cases j with
    | zero =>
      match rest, hj with
      | f :: rest2, _ =>
        rw [tsAt_cons_zero, tsAt_cons_succ, tsAt_cons_zero]
        exact List.rel_of_pairwise_cons hs (List.mem_cons_self f rest2)
    | succ k =>
      rw [tsAt_cons_succ, tsAt_cons_succ]
      exact ih hs.of_cons (by simpa using hj)
theorem tsAt_mono {es : List Entry} (hs : tsSorted es) :
    ∀ (j i : Nat), i ≤ j → j < es.length → tsAt es i ≤ tsAt es j := by
  intro j
  induction j with
  | zero =>
    intro i hij hj
    have h0 : i = 0 := by omega
    simp [h0]
  | succ k ih =>
    intro i hij hk
    rcases Nat.eq_or_lt_of_le hij with he | hlt
    · rw [he]
    · exact le_trans (ih i (by omega) (by omega)) (tsAt_mono_succ hs hk)


/-- Claim C1, counterexample. The claim states that the sum of the emitted
delaySinceLastNanos values never exceeds the configured maximum duration D.
On the sorted entries with absolute timestamps 0 and 5 and D = 3 the code
emits both entries (the second one is the entry at which elapsed first
reaches D and is emitted before the loop breaks), so the emitted delays are
0 and 5 and their sum 5 exceeds D = 3. -/
theorem c1_counterexample :
    tsSorted [Entry.mk 0 "u" "s" 0, Entry.mk 0 "u" "s" 5] ∧
    sortRel [Entry.mk 0 "u" "s" 0, Entry.mk 0 "u" "s" 5]
      [Entry.mk 0 "u" "s" 0, Entry.mk 0 "u" "s" 5] ∧
    (0 : Int) < 3 ∧
    delaySum (emit [Entry.mk 0 "u" "s" 0, Entry.mk 0 "u" "s" 5] 3) = 5 ∧
    (3 : Int) < 5 := by
  refine ⟨by decide, by decide, by decide, by decide, by decide⟩

/-- Claim C1, amended. For sorted entries whose absolute timestamps lie in
the int64-safe window [0, 2^62) and a positive maximum duration D, the sum
of the emitted delays EXCLUDING the last emitted entry is strictly below D:
every entry before the last was emitted only because elapsed had not yet
reached D. The total sum may meet or exceed D by up to the final delay,
as the counterexample shows. -/
theorem c1_amended (es : List Entry) (maxD : Int)
    (hs : tsSorted es) (hr : InRange es) (hD : 0 < maxD) :
    delaySum ((emit es maxD).dropLast) < maxD := by
  rcases es with _ | ⟨e, rest⟩
  · simpa [emit, emitLoop, delaySum] using hD
  · have hpos : 0 < (emit (e :: rest) maxD).length := by
      rw [emit_cons]; simp
    rcases Nat.lt_or_ge (emit (e :: rest) maxD).length 2 with h2 | h2
    · have h1 : (emit (e :: rest) maxD).length - 1 = 0 := by omega
      rw [List.dropLast_eq_take, h1]
      simpa [delaySum] using hD
    · have htake : (emit (e :: rest) maxD).length - 1 =
          ((emit (e :: rest) maxD).length - 2) + 1 := by omega
      rw [List.dropLast_eq_take, htake,
        emit_take_sum (e :: rest) maxD hr _ (by omega)]
      exact emit_no_cut _ maxD hD hs hr _ (by omega)

/-- Claim C1, witness: the amended bound evaluated on the counterexample
scenario itself, timestamps 0 and 5 with maximum duration 3. -/
theorem c1_witness :
    delaySum ((emit [Entry.mk 0 "u" "s" 0, Entry.mk 0 "u" "s" 5] 3).dropLast) < 3 :=
  c1_amended [Entry.mk 0 "u" "s" 0, Entry.mk 0 "u" "s" 5] 3 (by decide) (by decide) (by decide)

/-- Claim C2, counterexample. The claim states that the last emitted entry is
exactly the first entry whose cumulative delay sum reaches D, everything
after it being discarded. With timestamps -1, 2^63-3, 2^63-1, 2^63-1 (all
valid int64 Unix nanosecond values) and D = 2^63-1, the delays are 0,
2^63-2, 2 and 0, so the cumulative sum reaches D at the third entry; but the
int64 elapsed accumulator of the code wraps to -2^63 at that entry, the
comparison elapsed >= D stays false, and the code emits all four entries
instead of stopping at the third. -/
theorem c2_counterexample :
    tsSorted [Entry.mk 0 "u" "s" (-1), Entry.mk 0 "u" "s" 9223372036854775805,
      Entry.mk 0 "u" "s" 9223372036854775807, Entry.mk 0 "u" "s" 9223372036854775807] ∧
    (0 : Int) < 9223372036854775807 ∧
    (9223372036854775807 : Int) ≤ delaySum ((emit [Entry.mk 0 "u" "s" (-1),
      Entry.mk 0 "u" "s" 9223372036854775805, Entry.mk 0 "u" "s" 9223372036854775807,
      Entry.mk 0 "u" "s" 9223372036854775807] 9223372036854775807).take 3) ∧
    (emit [Entry.mk 0 "u" "s" (-1), Entry.mk 0 "u" "s" 9223372036854775805,
      Entry.mk 0 "u" "s" 9223372036854775807,
      Entry.mk 0 "u" "s" 9223372036854775807] 9223372036854775807).length = 4 := by
  refine ⟨by decide, by decide, by decide, by decide⟩

/-- Claim C2, amended. For sorted entries with absolute timestamps in the
int64-safe window [0, 2^62), where the cumulative delay sum through entry k
telescopes to that entry timestamp minus the first timestamp: with D = 0
every entry is emitted; and for D > 0, if k is the first position whose
cumulative delay sum reaches D then exactly the entries up to and including
position k are emitted. Outside the safe window the int64 elapsed
accumulator can wrap and the cutoff can be missed, as the counterexample
shows. -/
theorem c2_amended (es : List Entry) (maxD : Int) (hs : tsSorted es) (hr : InRange es) :
    (emit es 0).length = es.length ∧
    (0 < maxD → ∀ k, k < es.length → maxD ≤ tsAt es k - tsAt es 0 →
      (∀ j, j < k → tsAt es j - tsAt es 0 < maxD) →
      (emit es maxD).length = k + 1) := by
  constructor
  · exact emitLoop_len_nonpos 0 (by omega) es 0 0 0
  · intro hD k hk hhit hmin
    match es, hk with
    | e :: rest, hk =>
      rw [emit_cons]
      simp only [List.length_cons]
      cases k with
      | zero => omega
      | succ m =>
        have h0 := hr e (List.mem_cons_self e rest)
        have hhit2 : maxD ≤ tsAt rest m - e.delaySinceLastNanos := by
          rw [tsAt_cons_succ] at hhit
          rw [tsAt_cons_zero] at hhit
          exact hhit
        have hmin2 : ∀ j, j < m → tsAt rest j - e.delaySinceLastNanos < maxD := by
          intro j hj
          have := hmin (j + 1) (by omega)
          rw [tsAt_cons_succ, tsAt_cons_zero] at this
          exact this
        have hcut := emitLoop_len_cut maxD e.delaySinceLastNanos rest 1
          e.delaySinceLastNanos m (by omega) hD hs.of_cons
          (fun x hx => hr x (List.mem_cons_of_mem e hx)) h0.1 le_rfl h0.2
          (fun x hx => List.rel_of_pairwise_cons hs hx) (by simpa using hk) hhit2 hmin2
        rw [sub_self] at hcut
        omega

/-- Claim C2, witness: timestamps 0, 3, 10 with maximum duration 2; the
first cumulative sum reaching 2 is at position 1, and exactly 2 entries are
emitted. -/
theorem c2_witness :
    (emit [Entry.mk 0 "u" "s" 0, Entry.mk 0 "u" "s" 3, Entry.mk 0 "u" "s" 10] 2).length = 2 :=
  (c2_amended [Entry.mk 0 "u" "s" 0, Entry.mk 0 "u" "s" 3, Entry.mk 0 "u" "s" 10] 2
    (by decide) (by decide)).2 (by decide) 1 (by decide) (by decide) (by decide)

/-- Claim C3. For a nonempty sorted entry sequence the emit stage gives every
emitted entry the id equal to its 0-based position in output order, gives the
first emitted entry delay 0, and gives every later emitted entry the
difference of its own absolute timestamp and the one of the entry right
before it, computed with int64 subtraction exactly as the source (wrap64 of
the mathematical difference, which coincides with it whenever the difference
fits in an int64). -/
theorem c3_thm (es : List Entry) (maxD : Int) (hne : es ≠ []) (hs : tsSorted es) :
    (∀ j, j < (emit es maxD).length →
      ((emit es maxD)[j]?).map Entry.id = some (j : Int)) ∧
    ((emit es maxD)[0]?).map Entry.delaySinceLastNanos = some 0 ∧
    (∀ j, j + 1 < (emit es maxD).length →
      ((emit es maxD)[j + 1]?).map Entry.delaySinceLastNanos =
        some (wrap64 (tsAt es (j + 1) - tsAt es j))) := by
  refine ⟨?_, ?_, ?_⟩
  · intro j hj
    have h := emitLoop_id maxD es 0 0 0 j hj
    rw [show emitLoop maxD es 0 0 0 = emit es maxD from rfl] at h
    simpa using h
  · match es, hne with
    | e :: rest, _ =>
      rw [emit_cons]
      simp
  · intro j hj
    have h := emitLoop_delay_step maxD es 0 0 0 j (by simpa [emit] using hj)
    rw [show emitLoop maxD es 0 0 0 = emit es maxD from rfl] at h
    exact h

/-- Claim C3, witness: two entries with timestamps 100 and 250; the second
emitted entry has id 1 and delay equal to the timestamp difference. -/
theorem c3_witness :
    ((emit [Entry.mk 7 "a" "b" 100, Entry.mk 9 "c" "d" 250] 0)[1]?).map Entry.id = some 1 ∧
    ((emit [Entry.mk 7 "a" "b" 100, Entry.mk 9 "c" "d" 250] 0)[0]?).map
      Entry.delaySinceLastNanos = some 0 ∧
    ((emit [Entry.mk 7 "a" "b" 100, Entry.mk 9 "c" "d" 250] 0)[1]?).map
      Entry.delaySinceLastNanos =
      some (wrap64 (tsAt [Entry.mk 7 "a" "b" 100, Entry.mk 9 "c" "d" 250] 1 -
        tsAt [Entry.mk 7 "a" "b" 100, Entry.mk 9 "c" "d" 250] 0)) :=
  ⟨(c3_thm [Entry.mk 7 "a" "b" 100, Entry.mk 9 "c" "d" 250] 0 (by decide) (by decide)).1
      1 (by decide),
   (c3_thm [Entry.mk 7 "a" "b" 100, Entry.mk 9 "c" "d" 250] 0 (by decide) (by decide)).2.1,
   (c3_thm [Entry.mk 7 "a" "b" 100, Entry.mk 9 "c" "d" 250] 0 (by decide) (by decide)).2.2
      0 (by decide)⟩

/-- Claim C10, counterexample. The claim states that no emitted delay is ever
negative. With the sorted timestamps -2^62 and 2^62, both valid int64 Unix
nanosecond values (the years 1823 and 2116), the int64 subtraction of the
code wraps: the difference 2^63 does not fit in an int64 and becomes -2^63,
so the second emitted delay is negative. -/
theorem c10_counterexample :
    tsSorted [Entry.mk 0 "u" "s" (-4611686018427387904),
      Entry.mk 0 "u" "s" 4611686018427387904] ∧
    (emit [Entry.mk 0 "u" "s" (-4611686018427387904),
      Entry.mk 0 "u" "s" 4611686018427387904] 0).map Entry.delaySinceLastNanos =
      [0, -9223372036854775808] ∧
    (-9223372036854775808 : Int) < 0 := by
  refine ⟨by decide, by decide, by decide⟩

/-- Claim C10, amended. For sorted entries whose absolute timestamps lie in
the int64-safe window [0, 2^62), where consecutive differences cannot wrap,
every emitted delay is non-negative and the first emitted delay is exactly
0. Outside the window the int64 subtraction can wrap to a negative delay, as
the counterexample shows. -/
theorem c10_amended (es : List Entry) (maxD : Int) (hs : tsSorted es) (hr : InRange es) :
    (∀ x ∈ emit es maxD, 0 ≤ x.delaySinceLastNanos) ∧
    (es ≠ [] → ((emit es maxD)[0]?).map Entry.delaySinceLastNanos = some 0) := by
  constructor
  · intro x hx
    obtain ⟨j, hj, hget⟩ := List.getElem_of_mem hx
    have hjlen : j < es.length :=
      Nat.lt_of_lt_of_le hj (emitLoop_length_le maxD es 0 0 0)
    cases j with
    | zero =>
      match es, hjlen, hj, hget with
      | e :: rest, _, hj, hget =>
        have hget2 : (emit (e :: rest) maxD)[0]? = some x := by
          rw [List.getElem?_eq_getElem hj, hget]
        rw [emit_cons] at hget2
        simp at hget2
        rw [← hget2]
    | succ k =>
      have h := emitLoop_delay_step maxD es 0 0 0 k hj
      rw [show emitLoop maxD es 0 0 0 = emit es maxD from rfl] at h
      rw [List.getElem?_eq_getElem hj, hget] at h
      have hx2 : x.delaySinceLastNanos = wrap64 (tsAt es (k + 1) - tsAt es k) := by
        simpa using h
      have b1 := tsAt_bounds hr (Nat.lt_of_succ_lt hjlen)
      have b2 := tsAt_bounds hr hjlen
      have hmono := tsAt_mono_succ hs hjlen
      rw [hx2, wrap64_eq_self (by omega) (by omega)]
      omega
  · intro hne
    match es, hne with
    | e :: rest, _ =>
      rw [emit_cons]
      simp

/-- Claim C10, witness: timestamps 100 and 250 inside the safe window; every
emitted delay is non-negative and the first is 0. -/
theorem c10_witness :
    (∀ x ∈ emit [Entry.mk 0 "u" "s" 100, Entry.mk 0 "u" "s" 250] 0,
      0 ≤ x.delaySinceLastNanos) ∧
    ((emit [Entry.mk 0 "u" "s" 100, Entry.mk 0 "u" "s" 250] 0)[0]?).map
      Entry.delaySinceLastNanos = some 0 :=
  ⟨(c10_amended [Entry.mk 0 "u" "s" 100, Entry.mk 0 "u" "s" 250] 0
      (by decide) (by decide)).1,
   (c10_amended [Entry.mk 0 "u" "s" 100, Entry.mk 0 "u" "s" 250] 0
      (by decide) (by decide)).2 (by decide)⟩

/-- Claim C4. For every built entry list and every output the sort stage can
produce for it, the emitted entries are at most as many as the sorted
entries, and the sorted list that the emit stage walks is non-decreasing in
the original absolute timestamps at every pair of consecutive emitted
positions: output order is ascending in the original timestamps. -/
theorem c4_thm (l out : List Entry) (maxD : Int) (hrel : sortRel l out) :
    (emit out maxD).length ≤ out.length ∧
    (∀ j, j + 1 < (emit out maxD).length → tsAt out j ≤ tsAt out (j + 1)) := by
  refine ⟨emitLoop_length_le maxD out 0 0 0, ?_⟩
  intro j hj
  exact tsAt_mono_succ hrel.2 (Nat.lt_of_lt_of_le hj (emitLoop_length_le maxD out 0 0 0))

/-- Claim C4, witness: the already sorted two-entry list is a sort output of
itself and its emitted prefix is timestamp-ascending. -/
theorem c4_witness :
    (emit [Entry.mk 0 "u" "s" 0, Entry.mk 0 "u" "s" 5] 0).length ≤
      ([Entry.mk 0 "u" "s" 0, Entry.mk 0 "u" "s" 5] : List Entry).length ∧
    (∀ j, j + 1 < (emit [Entry.mk 0 "u" "s" 0, Entry.mk 0 "u" "s" 5] 0).length →
      tsAt [Entry.mk 0 "u" "s" 0, Entry.mk 0 "u" "s" 5] j ≤
        tsAt [Entry.mk 0 "u" "s" 0, Entry.mk 0 "u" "s" 5] (j + 1)) :=
  c4_thm [Entry.mk 0 "u" "s" 0, Entry.mk 0 "u" "s" 5]
    [Entry.mk 0 "u" "s" 0, Entry.mk 0 "u" "s" 5] 0 (by decide)

/-- Claim C5, counterexample. The claim states that entries with equal
absolute timestamps keep their input encounter order, the sort being stable.
The code sorts with Go sort.Sort, whose contract does not guarantee
stability: for the already sorted input of two distinct entries with equal
timestamps, the swapped list is also a permutation that is non-decreasing in
the timestamp, hence a possible output of the sort stage, and it does not
keep the encounter order. -/
theorem c5_counterexample :
    sortRel [Entry.mk 0 "a" "a" 5, Entry.mk 0 "b" "b" 5]
      [Entry.mk 0 "b" "b" 5, Entry.mk 0 "a" "a" 5] ∧
    tsSorted [Entry.mk 0 "a" "a" 5, Entry.mk 0 "b" "b" 5] ∧
    ([Entry.mk 0 "b" "b" 5, Entry.mk 0 "a" "a" 5] : List Entry) ≠
      [Entry.mk 0 "a" "a" 5, Entry.mk 0 "b" "b" 5] := by
  refine ⟨by decide, by decide, by decide⟩

/-- Claim C5, amended. What the sort stage does guarantee for entries with
equal timestamps: every entry keeps its multiplicity (the output is a
permutation of the input), and entries of one timestamp form one contiguous
block of the output; their order inside the block is unspecified, because
sort.Sort is not guaranteed stable. -/
theorem c5_amended (l out : List Entry) (hrel : sortRel l out) :
    (∀ e : Entry, out.count e = l.count e) ∧
    (∀ i j k : Nat, i ≤ j → j ≤ k → k < out.length →
      tsAt out i = tsAt out k → tsAt out j = tsAt out i) := by
  refine ⟨fun e => (hrel.1.count_eq e).symm, ?_⟩
  intro i j k hij hjk hk hik
  have h1 := tsAt_mono hrel.2 j i hij (by omega)
  have h2 := tsAt_mono hrel.2 k j hjk hk
  omega

/-- Claim C5, witness: the swapped output of the counterexample keeps both
entries (counts preserved) and its equal-timestamp block is constant. -/
theorem c5_witness :
    ([Entry.mk 0 "b" "b" 5, Entry.mk 0 "a" "a" 5].count (Entry.mk 0 "a" "a" 5) =
      [Entry.mk 0 "a" "a" 5, Entry.mk 0 "b" "b" 5].count (Entry.mk 0 "a" "a" 5)) ∧
    tsAt [Entry.mk 0 "b" "b" 5, Entry.mk 0 "a" "a" 5] 1 =
      tsAt [Entry.mk 0 "b" "b" 5, Entry.mk 0 "a" "a" 5] 0 :=
  ⟨(c5_amended [Entry.mk 0 "a" "a" 5, Entry.mk 0 "b" "b" 5]
      [Entry.mk 0 "b" "b" 5, Entry.mk 0 "a" "a" 5] (by decide)).1 (Entry.mk 0 "a" "a" 5),
   (c5_amended [Entry.mk 0 "a" "a" 5, Entry.mk 0 "b" "b" 5]
      [Entry.mk 0 "b" "b" 5, Entry.mk 0 "a" "a" 5] (by decide)).2 0 1 1
      (by decide) (by decide) (by decide) (by decide)⟩

set_option maxRecDepth 8000

theorem acceptedOf_nil : acceptedOf [] = [] := rfl

theorem acceptedOf_cons_skip (l : String) (rest : List String) (f : LogFields)
    (hm : matchLine l = some f) (hq : f.log_type ≠ "index.search.slowlog.query") :
    acceptedOf (l :: rest) = acceptedOf rest := by
  unfold acceptedOf
  rw [List.filterMap_cons]
  simp [hm, hq]

theorem acceptedOf_cons_none (l : String) (rest : List String)
    (hm : matchLine l = none) :
    acceptedOf (l :: rest) = acceptedOf rest := by
  unfold acceptedOf
  rw [List.filterMap_cons]
  simp [hm]

theorem acceptedOf_cons_accept (l : String) (rest : List String) (f : LogFields)
    (hm : matchLine l = some f) (hq : f.log_type = "index.search.slowlog.query") :
    acceptedOf (l :: rest) = f :: acceptedOf rest := by
  unfold acceptedOf
  rw [List.filterMap_cons]
  simp [hm, hq]

/-- Claim C9. A structurally well-formed line whose log_type is not the
query category index.search.slowlog.query is a pure no-op for the scan loop:
inserting it anywhere into the input leaves the result of the whole scan,
its entries, their order, and the accepted-line counter used for the
round-robin index exactly as without it; in particular it produces no entry
and no error and shifts no subsequent id. -/
theorem c9_thm (urlArg : String) (ov : List String) (pre post : List String)
    (line : String) (f : LogFields) (hm : matchLine line = some f)
    (hq : f.log_type ≠ "index.search.slowlog.query") (count : Nat) :
    buildLoop urlArg ov (pre ++ line :: post) count =
      buildLoop urlArg ov (pre ++ post) count := by
  induction pre generalizing count with
  | nil =>
    simp only [List.nil_append]
    rw [show buildLoop urlArg ov (line :: post) count =
      buildLoop urlArg ov post count by simp [buildLoop, hm, hq]]
  | cons p pre2 ih =>
    simp only [List.cons_append]
    unfold buildLoop
    cases hp : matchLine p with
    | none => rfl
    | some g =>
      by_cases hg : g.log_type = "index.search.slowlog.query"
      · simp only [hg, ne_eq, not_true_eq_false, if_false]
        cases ht : parseTimestamp (String.mk (replaceCommaOnce g.ts.data)) with
        | none => rfl
        | some t => rw [ih (count + 1)]
      · simp only [if_pos hg]
        exact ih count

/-- Claim C6. A line the pattern does not match is fatal: whenever the lines
before it scan cleanly, the whole run fails with MalformedLineError (in the
source, the panic on the unchecked first-match index) no matter what comes
after the offending line — the line is not skipped, no entry is produced for
it or for any later line, and since this program writes all its output only
after the scan loop ends, nothing is emitted at all. -/
theorem c6_thm (urlArg : String) (ov : List String) (pre post : List String)
    (line : String) (hm : matchLine line = none) :
    ∀ (count : Nat) (es0 : List Entry),
    buildLoop urlArg ov pre count = .ok es0 →
    buildLoop urlArg ov (pre ++ line :: post) count = .error .malformedLine := by
  induction pre with
  | nil =>
    intro count es0 _
    simp only [List.nil_append]
    simp [buildLoop, hm]
  | cons p pre2 ih =>
    intro count es0 hpre
    simp only [List.cons_append]
    unfold buildLoop
    unfold buildLoop at hpre
    cases hp : matchLine p with
    | none => exact absurd hpre (by simp [hp])
    | some g =>
      by_cases hg : g.log_type = "index.search.slowlog.query"
      · simp only [hp, hg, ne_eq, not_true_eq_false, if_false] at hpre ⊢
        cases ht : parseTimestamp (String.mk (replaceCommaOnce g.ts.data)) with
        | none => exact absurd hpre (by simp [ht])
        | some t =>
          cases hb : buildLoop urlArg ov pre2 (count + 1) with
          | error e => exact absurd hpre (by simp [ht, hb, Except.map])
          | ok es2 =>
            have h2 := ih (count + 1) es2 hb
            simp only [ht, h2, Except.map]
      · simp only [hp, ne_eq, if_pos hg] at hpre ⊢
        exact ih count es0 hpre

theorem buildLoop_accepted (urlArg : String) (ov : List String) :
    ∀ (lines : List String) (count : Nat) (es : List Entry),
    buildLoop urlArg ov lines count = .ok es →
    es.length = (acceptedOf lines).length ∧
    ∀ k : Nat, (es[k]?).map Entry.url =
      ((acceptedOf lines)[k]?).map (fun f => mkUrl urlArg ov (count + k) f) := by
  intro lines
  induction lines with
  | nil =>
    intro count es h
    have he : es = [] := by
      simpa [buildLoop] using h.symm
    subst he
    refine ⟨by simp [acceptedOf_nil], ?_⟩
    intro k
    simp [acceptedOf_nil]
  | cons l rest ih =>
    intro count es h
    unfold buildLoop at h
    cases hp : matchLine l with
    | none => exact absurd h (by simp [hp])
    | some g =>
      by_cases hg : g.log_type = "index.search.slowlog.query"
      · simp only [hp, hg, ne_eq, not_true_eq_false, if_false] at h
        cases ht : parseTimestamp (String.mk (replaceCommaOnce g.ts.data)) with
        | none => exact absurd h (by simp [ht])
        | some t =>
          cases hb : buildLoop urlArg ov rest (count + 1) with
          | error e => exact absurd h (by simp [ht, hb, Except.map])
          | ok es2 =>
            have he : es = Entry.mk 0 (mkUrl urlArg ov count g) g.source t :: es2 := by
              rw [ht, hb] at h
              simpa [Except.map] using h.symm
            subst he
            obtain ⟨ihlen, ihurl⟩ := ih (count + 1) es2 hb
            rw [acceptedOf_cons_accept l rest g hp hg]
            refine ⟨by simpa using ihlen, ?_⟩
            intro k
            cases k with
            | zero => simp
            | succ m =>
              rw [List.getElem?_cons_succ, List.getElem?_cons_succ]
              have hcast : count + 1 + m = count + (m + 1) := by omega
              rw [← hcast]
              exact ihurl m
      · simp only [hp, ne_eq, if_pos hg] at h
        rw [acceptedOf_cons_skip l rest g hp hg]
        exact ih count es h

/-- Claim C7. If the scan loop accepts a run cleanly, then the produced
entries correspond one to one with the accepted (query-category) lines in
encounter order, and the k-th entry URL is built with the accepted-line
counter equal to k: with a nonempty override list the index path segment is
the override element at position k modulo the list length (round-robin), and
with an empty override list it is the index field of that line, as the two
final conjuncts spell out on mkUrl. -/
theorem c7_thm (urlArg : String) (ov : List String) (lines : List String) (es : List Entry)
    (h : buildLoop urlArg ov lines 0 = .ok es) :
    es.length = (acceptedOf lines).length ∧
    (∀ k : Nat, (es[k]?).map Entry.url =
      ((acceptedOf lines)[k]?).map (fun f => mkUrl urlArg ov k f)) ∧
    (∀ (n : Nat) (f : LogFields) (hov : 0 < ov.length),
      mkUrl urlArg ov n f =
        (if urlArg ≠ "" then urlArg else f.host) ++ "/" ++
          ov.get ⟨n % ov.length, Nat.mod_lt n hov⟩ ++ "/" ++ f.types ++ "/_search" ++
          (if f.search_type ≠ "" then "?search_type=" ++ String.mk (lowerCL f.search_type.data)
           else "")) ∧
    (∀ (n : Nat) (f : LogFields), ov = [] →
      mkUrl urlArg ov n f =
        (if urlArg ≠ "" then urlArg else f.host) ++ "/" ++ f.index ++ "/" ++ f.types ++
          "/_search" ++
          (if f.search_type ≠ "" then "?search_type=" ++ String.mk (lowerCL f.search_type.data)
           else "")) := by
  obtain ⟨h1, h2⟩ := buildLoop_accepted urlArg ov lines 0 es h
  refine ⟨h1, fun k => by simpa using h2 k, ?_, ?_⟩
  · intro n f hov
    simp [mkUrl, hov]
  · intro n f hov
    subst hov
    simp [mkUrl]

/-- Claim C7, witness: two accepted lines with overrides a and b produce the
urls with index segments a then b (round-robin in emission order). -/
theorem c7_witness :
    ([Entry.mk 0 "h/a/t/_search?search_type=s" "q" 1577872800000000000,
      Entry.mk 0 "h2/b/t/_search?search_type=s" "q2" 1577872801000000000].length =
        (acceptedOf [lineQuery1, lineQuery2]).length) ∧
    ([Entry.mk 0 "h/a/t/_search?search_type=s" "q" 1577872800000000000,
      Entry.mk 0 "h2/b/t/_search?search_type=s" "q2" 1577872801000000000].map Entry.url =
        ["h/a/t/_search?search_type=s", "h2/b/t/_search?search_type=s"]) :=
  ⟨(c7_thm "" ["a", "b"] [lineQuery1, lineQuery2]
      [Entry.mk 0 "h/a/t/_search?search_type=s" "q" 1577872800000000000,
       Entry.mk 0 "h2/b/t/_search?search_type=s" "q2" 1577872801000000000]
      (by decide)).1,
   by decide⟩

/-- Claim C9, witness: one well-formed non-query line scans exactly like the
empty input. -/
theorem c9_witness :
    buildLoop "" [] [lineFetch] 0 = buildLoop "" [] ([] : List String) 0 :=
  c9_thm "" [] [] [] lineFetch ⟨"t", "x", "h", "i", "y", "s", "q"⟩ (by decide) (by decide) 0

/-- Claim C6, witness: the unmatchable line x aborts the scan with
MalformedLineError. -/
theorem c6_witness :
    buildLoop "" [] ["x"] 0 = .error .malformedLine :=
  c6_thm "" [] [] [] "x" (by decide) 0 [] rfl

theorem strIndex_none_takeWhile (c : Char) :
    ∀ l : List Char, strIndex c l = none → l.takeWhile (fun x => x ≠ c) = l := by
  intro l
  induction l with
  | nil => intro _; rfl
  | cons x xs ih =>
    intro h
    unfold strIndex at h
    by_cases hx : x = c
    · simp [hx] at h
    · simp only [if_neg hx] at h
      cases hs : strIndex c xs with
      | none =>
        have hd : (decide (x ≠ c)) = true := decide_eq_true hx
        rw [List.takeWhile_cons, hd, if_pos rfl, ih hs]
      | some i => rw [hs] at h; simp at h

theorem strIndex_some_takeWhile (c : Char) :
    ∀ (l : List Char) (i : Nat), strIndex c l = some i →
      l.takeWhile (fun x => x ≠ c) = l.take i := by
  intro l
  induction l with
  | nil => intro i h; simp [strIndex] at h
  | cons x xs ih =>
    intro i h
    unfold strIndex at h
    by_cases hx : x = c
    · simp only [if_pos hx] at h
      have hi : i = 0 := by simpa using h.symm
      subst hi
      subst hx
      simp [List.takeWhile_cons]
    · simp only [if_neg hx] at h
      cases hs : strIndex c xs with
      | none => rw [hs] at h; simp at h
      | some j =>
        rw [hs] at h
        have hij : i = j + 1 := by simpa using h.symm
        subst hij
        have hd : (decide (x ≠ c)) = true := decide_eq_true hx
        rw [List.take_succ_cons, List.takeWhile_cons, hd, if_pos rfl, ih j hs]

theorem strIndex_zero_head (c : Char) (l : List Char) (h : strIndex c l = some 0) :
    l.head? = some c := by
  cases l with
  | nil => simp [strIndex] at h
  | cons x xs =>
    unfold strIndex at h
    by_cases hx : x = c
    · simp [hx]
    · simp only [if_neg hx] at h
      cases hs : strIndex c xs with
      | none => rw [hs] at h; simp at h
      | some j => rw [hs] at h; simp at h

/-- Claim C8, amended. Whenever the remainder of the target URL argument
after stripping the scheme does not start with a slash, the code
normalization agrees with the normalization the claim describes: strip the
scheme, drop everything from the first slash onward, put the scheme back,
leaving scheme://host[:port]. When the remainder does start with a slash,
the code keeps the remainder whole: the truncation of parse_slowlog.go line
58 is guarded by index > 0, so a leading slash is never a cut point, which
is where the code and the claim part ways. -/
theorem c8_amended_thm :
    (∀ a : String, (remOf a).data.head? ≠ some '/' →
      normalizeUrlArg [a] = normalizeUrlArgSpec [a]) ∧
    (∀ a : String, (remOf a).data.head? = some '/' →
      normalizeUrlArg [a] = schemeOf a ++ remOf a) := by
  constructor
  · intro a hh
    simp only [normalizeUrlArg, normalizeUrlArgSpec]
    cases hidx : strIndex '/' (remOf a).data with
    | none =>
      rw [strIndex_none_takeWhile '/' _ hidx]
    | some i =>
      cases i with
      | zero => exact absurd (strIndex_zero_head '/' _ hidx) hh
      | succ m =>
        rw [strIndex_some_takeWhile '/' _ _ hidx]
        simp
  · intro a hh
    simp only [normalizeUrlArg]
    cases hidx : strIndex '/' (remOf a).data with
    | none => rfl
    | some i =>
      cases i with
      | zero => simp
      | succ m =>
        cases hl : (remOf a).data with
        | nil => rw [hl] at hh; simp at hh
        | cons x xs =>
          rw [hl] at hh hidx
          have hx : x = '/' := by simpa using hh
          unfold strIndex at hidx
          rw [if_pos hx] at hidx
          simp at hidx

/-- Claim C8, counterexample. On the argument /foo (and likewise
http:///foo, whose remainder after the scheme starts with a slash) the code
keeps everything: strings.Index finds the slash at position 0, the guard
index > 0 fails and nothing is dropped, while the procedure the claim
describes would reduce the argument to the bare scheme. -/
theorem c8_counterexample :
    normalizeUrlArg ["/foo"] = "/foo" ∧
    normalizeUrlArgSpec ["/foo"] = "" ∧
    ("/foo" : String) ≠ "" ∧
    normalizeUrlArg ["http:///foo"] = "http:///foo" ∧
    normalizeUrlArgSpec ["http:///foo"] = "http://" := by
  refine ⟨by decide, by decide, by decide, by decide, by decide⟩

/-- Claim C8, witness: the specification host-override example,
http://example.com:9200/foo, where code and described procedure agree and
both give http://example.com:9200. -/
theorem c8_witness :
    normalizeUrlArg ["http://example.com:9200/foo"] =
      normalizeUrlArgSpec ["http://example.com:9200/foo"] ∧
    normalizeUrlArg ["http://example.com:9200/foo"] = "http://example.com:9200" :=
  ⟨c8_amended_thm.1 "http://example.com:9200/foo" (by decide), by decide⟩
